import Mathlib

/-!
Verification of the qwik-speak build tools (extraction and inline Vite plugin).

The definitions below are a shallow embedding of `src/tools/inline/plugin.ts`
and of the key/default split of `src/tools/extract/index.ts`.  Strings are
modelled as Lean `String` (lists of characters); JavaScript `undefined` for
string-valued expressions is modelled with `Option String`; the `log` side
effect is modelled by accumulating the logged lines in a list.  The regular
expressions appearing in the source are hand-compiled to executable matchers
with JavaScript backtracking semantics (leftmost alternative first, greedy
quantifiers).  Translation trees (`Translation`) are nested string maps whose
leaves are strings; a leaf is atomic (JavaScript string character indexing of
a leaf mid-walk is outside the modelled data model, which follows the JSON
translation assets: leaves are strings, interior nodes are objects).
-/

namespace QwikSpeak

/-- Characters that are written via their code points to keep the file free of
quote-like literal characters: backtick, single quote, double quote. -/
def bqC : Char := Char.ofNat 96

def sqC : Char := Char.ofNat 39

def dqC : Char := Char.ofNat 34

def lbC : Char := Char.ofNat 123

def rbC : Char := Char.ofNat 125

/-- JavaScript `\s` (whitespace) on the ASCII range: space, tab, line feed,
vertical tab, form feed, carriage return.  (The Unicode space separators also
matched by `\s` do not occur in any input considered here.) -/
def isWsC (c : Char) : Bool :=
  c = ' ' || c = Char.ofNat 9 || c = Char.ofNat 10 || c = Char.ofNat 11 ||
  c = Char.ofNat 12 || c = Char.ofNat 13

/-- JavaScript `\w`: ASCII letters, digits and underscore. -/
def isWordC (c : Char) : Bool :=
  (Char.ofNat 97 ≤ c && c ≤ Char.ofNat 122) ||
  (Char.ofNat 65 ≤ c && c ≤ Char.ofNat 90) ||
  (Char.ofNat 48 ≤ c && c ≤ Char.ofNat 57) || c = '_'

/-- `hasLead pat l` holds when `pat` is an initial segment of `l`
(the test JavaScript performs when looking for a substring occurrence). -/
def hasLead : List Char → List Char → Bool
  | [], _ => true
  | _ :: _, [] => false
  | p :: ps, c :: cs => p = c && hasLead ps cs

/-- Index of the first occurrence of `pat` in `s` (JavaScript `indexOf`). -/
def findSub (s pat : List Char) : Option Nat :=
  go s 0
where
  go : List Char → Nat → Option Nat
    | l, i =>
      if hasLead pat l then some i
      else
        match l with
        | [] => none
        | _ :: r => go r (i + 1)

/-- One step of JavaScript `String.prototype.split` with a string separator:
the chunk before the first occurrence of the separator is peeled off.  The
fuel is the length of the string; every recursive call consumes at least one
character when the separator is nonempty, so the fuel never runs out. -/
def splitGo (sep : List Char) : Nat → List Char → List (List Char)
  | 0, s => [s]
  | fuel + 1, s =>
    match findSub s sep with
    | none => [s]
    | some i => s.take i :: splitGo sep fuel (s.drop (i + sep.length))

/-- JavaScript `s.split(sep)` for a string separator: an empty separator
splits into single characters, otherwise the string is cut at every
occurrence of the separator. -/
def jsSplitStr (s sep : String) : List String :=
  if sep.data = [] then s.data.map (fun c => String.mk [c])
  else (splitGo sep.data s.data.length s.data).map String.mk

/-- JavaScript truthiness of a `string | undefined` value: `undefined` and
the empty string are falsy. -/
def jsTruthyOpt (o : Option String) : Bool :=
  match o with
  | none => false
  | some s => s ≠ ""

/-- JavaScript falsiness of a `string | undefined` value (`!x`). -/
def jsFalsyOpt (o : Option String) : Bool := ! jsTruthyOpt o

/-- Rendering of a `string | undefined` value inside a template literal or
under string concatenation: `undefined` becomes the text `undefined`. -/
def jsUndefToStr (o : Option String) : String :=
  match o with
  | none => "undefined"
  | some s => s

/-- First value bound to key `k` in an association list (JavaScript object
property lookup; object keys are unique, the first binding wins). -/
def lookupA {α : Type} (m : List (String × α)) (k : String) : Option α :=
  (m.find? (fun p => p.1 = k)).map (fun p => p.2)

/-- JavaScript `Map.prototype.set`: update in place when the key is present
(keeping insertion order), otherwise append. -/
def setAssoc (m : List (String × String)) (k v : String) : List (String × String) :=
  if m.any (fun p => p.1 = k) then m.map (fun p => if p.1 = k then (k, v) else p)
  else m ++ [(k, v)]

/-- Collapse every run of whitespace characters to a single space
(`x.replace(/\s+/g, ' ')` from `getParams`); the flag records whether the
previous character was part of a whitespace run. -/
def collapseWs : List Char → Bool → List Char
  | [], _ => []
  | c :: r, prevWs =>
    if isWsC c then
      if prevWs then collapseWs r true else ' ' :: collapseWs r true
    else c :: collapseWs r false

/-- JavaScript `String.prototype.trim`: strip leading and trailing
whitespace. -/
def jsTrim (l : List Char) : List Char :=
  ((l.dropWhile isWsC).reverse.dropWhile isWsC).reverse

/-- Whitespace normalisation applied to every split argument by `getParams`:
`x.replace(/\s+/g, ' ').trim()`. -/
def normWs (s : String) : String :=
  String.mk (jsTrim (collapseWs s.data false))

/-!
Hand-compiled backtracking matchers for the split pattern of `getParams`
(plugin.ts line 204):

  `/((?:[^,'"\x60]*(?:"(?:[^"])*"|'(?:[^'])*'|'(?:[^\x60])*\x60|,(?:[^\x7b]*\x7d))[^,'"\x60]*)+)|,/gs`

A matcher takes the remaining input and a continuation receiving the input
left over after the piece just matched; alternatives are tried left to right
and quantifiers are greedy, so the first continuation success is exactly the
match the JavaScript engine produces.
-/

/-- Matcher for a single character satisfying `p` (a character class). -/
def mCls (p : Char → Bool) (l : List Char) (k : List Char → Option (List Char)) :
    Option (List Char) :=
  match l with
  | [] => none
  | c :: r => if p c then k r else none

/-- Greedy matcher for `p*` where `p` is a character class: longer
consumptions are tried before shorter ones. -/
def mStarCls (p : Char → Bool) : List Char → (List Char → Option (List Char)) →
    Option (List Char)
  | [], k => k []
  | c :: r, k =>
    if p c then (mStarCls p r k) <|> k (c :: r) else k (c :: r)

/-- Sequencing of two matchers. -/
def mSeq (m₁ m₂ : List Char → (List Char → Option (List Char)) → Option (List Char))
    (l : List Char) (k : List Char → Option (List Char)) : Option (List Char) :=
  m₁ l (fun r => m₂ r k)

/-- Alternation of two matchers, left alternative first. -/
def mAlt (m₁ m₂ : List Char → (List Char → Option (List Char)) → Option (List Char))
    (l : List Char) (k : List Char → Option (List Char)) : Option (List Char) :=
  (m₁ l k) <|> (m₂ l k)

/-- Greedy matcher for `m*`: more iterations are tried first, and an
iteration must consume input (the JavaScript engine stops on an empty
iteration).  The fuel bounds the number of iterations; callers pass the
input length, which suffices because every iteration consumes a character. -/
def mStar (m : List Char → (List Char → Option (List Char)) → Option (List Char)) :
    Nat → List Char → (List Char → Option (List Char)) → Option (List Char)
  | 0, l, k => k l
  | fuel + 1, l, k =>
    (m l (fun r => if r.length < l.length then mStar m fuel r k else none)) <|> k l

/-- The character class `[^,'"\x60]` of the split pattern. -/
def isArgC (c : Char) : Bool :=
  !(c = ',' || c = sqC || c = dqC || c = bqC)

/-- Alternative `"(?:[^"])*"`: a double-quoted string. -/
def mDq : List Char → (List Char → Option (List Char)) → Option (List Char) :=
  mSeq (mCls (· = dqC)) (mSeq (mStarCls (· ≠ dqC)) (mCls (· = dqC)))

/-- Alternative `'(?:[^'])*'`: a single-quoted string. -/
def mSq : List Char → (List Char → Option (List Char)) → Option (List Char) :=
  mSeq (mCls (· = sqC)) (mSeq (mStarCls (· ≠ sqC)) (mCls (· = sqC)))

/-- Alternative `'(?:[^\x60])*\x60` of the source pattern.  Note that it
opens with a single quote and closes with a backtick (this is the literal
text of plugin.ts line 204), so it never matches a back-quoted string. -/
def mTicks : List Char → (List Char → Option (List Char)) → Option (List Char) :=
  mSeq (mCls (· = sqC)) (mSeq (mStarCls (· ≠ bqC)) (mCls (· = bqC)))

/-- Alternative `,(?:[^\x7b]*\x7d)`: a comma followed by a closing brace
with no opening brace in between. -/
def mObj : List Char → (List Char → Option (List Char)) → Option (List Char) :=
  mSeq (mCls (· = ',')) (mSeq (mStarCls (· ≠ lbC)) (mCls (· = rbC)))

/-- The inner alternation of the split pattern. -/
def mQuoted : List Char → (List Char → Option (List Char)) → Option (List Char) :=
  mAlt mDq (mAlt mSq (mAlt mTicks mObj))

/-- One iteration `[^,'"\x60]*(?:…)[^,'"\x60]*` of the capture group. -/
def mItem : List Char → (List Char → Option (List Char)) → Option (List Char) :=
  mSeq (mStarCls isArgC) (mSeq mQuoted (mStarCls isArgC))

/-- The capture group `(?:…)+` of the split pattern: one iteration followed
by a greedy star of further iterations. -/
def mGroup (l : List Char) (k : List Char → Option (List Char)) :
    Option (List Char) :=
  mSeq mItem (mStar mItem l.length) l k

/-- Attempt of the whole split pattern at the start of `l`: on success the
length of the match and whether the capture group participated (`true` for
the group alternative, `false` for the bare comma alternative). -/
def splitPatAt (l : List Char) : Option (Nat × Bool) :=
  match mGroup l some with
  | some r => some (l.length - r.length, true)
  | none =>
    match l with
    | c :: _ => if c = ',' then some (1, false) else none
    | [] => none

/-- The splitting loop of `String.prototype.split(regexp)` (ECMA-262): the
pattern is attempted at every index; on a match the pending chunk and the
capture (or `none` for an unmatched capture group) are emitted and scanning
resumes at the match end.  `p` is the start of the pending chunk, `q` the
current attempt position; the fuel is `size - q`, which decreases at every
step. -/
def jsSplitLoop (s : List Char) : Nat → Nat → Nat → List (Option (List Char))
  | 0, p, _ => [some ((s.drop p).take (s.length - p))]
  | fuel + 1, p, q =>
    if q < s.length then
      match splitPatAt (s.drop q) with
      | none => jsSplitLoop s fuel p (q + 1)
      | some (len, grp) =>
        if q + len = p then jsSplitLoop s fuel p (q + 1)
        else
          some ((s.drop p).take (q - p)) ::
          (if grp then some ((s.drop q).take len) else none) ::
          jsSplitLoop s fuel (q + len) (q + len)
    else [some ((s.drop p).take (s.length - p))]

/-- JavaScript `args.split(/(…)|,/gs)` for the split pattern of
`getParams`: chunks between matches interleaved with the captures
(`none` = `undefined`). -/
def jsSplitPat (s : List Char) : List (Option (List Char)) :=
  jsSplitLoop s (s.length + 1) 0 0

/-- `Array.prototype.filter(Boolean)`: keep entries that are neither
`undefined` nor the empty string. -/
def filterTruthy (l : List (Option (List Char))) : List (List Char) :=
  l.foldr (fun o acc => match o with
    | some x => if x = [] then acc else x :: acc
    | none => acc) []

/-- `getParams` (plugin.ts lines 201–210): split the raw argument-list text
by comma outside single or double quotes, backticks and brackets, then
normalise whitespace in each piece. -/
def getParams (args : String) : List String :=
  (filterTruthy (jsSplitPat args.data)).map (fun l => normWs (String.mk l))

/-- `trimQuotes` (plugin.ts lines 212–214),
`value.replace(/(^("|'|\x60))|("|'|\x60)$/g, '')`: remove one leading and
one trailing quote character (double, single or back quote). -/
def trimQuotes (value : String) : String :=
  let l := match value.data with
    | c :: r => if c = dqC || c = sqC || c = bqC then r else c :: r
    | [] => []
  let l := match l.reverse with
    | c :: r => if c = dqC || c = sqC || c = bqC then r.reverse else (c :: r).reverse
    | [] => []
  String.mk l

/-- `getKey` (plugin.ts lines 167–171): trim quotes, then keep the text
before the first occurrence of the key/value separator. -/
def getKey (param : String) (keyValueSeparator : String) : String :=
  ((jsSplitStr (trimQuotes param) keyValueSeparator).headD "")

/-- `quoteValue` (plugin.ts lines 221–223): wrap the value in backticks,
ready for inlining as a template literal. -/
def quoteValue (value : String) : String :=
  "\x60" ++ value ++ "\x60"

/-- `interpolateParam` (plugin.ts lines 225–227): build the interpolation
expression for a parameter. -/
def interpolateParam (param : String) : String :=
  "\x24\x7b" ++ param ++ "\x7d"

/-- `multilingual` (plugin.ts lines 161–165): a truthy argument whose
quote-trimmed text equals one of the supported languages selects that
language. -/
def multilingual (param : Option String) (supportedLangs : List String) :
    Option String :=
  match param with
  | none => none
  | some p =>
    if p = "" then none
    else supportedLangs.find? (fun x => x = trimQuotes p)

/-- Whether `^\s*:` matches, i.e. the lookahead `(?=:|\s+:)` of the
param-name pattern succeeds on this remainder. -/
def colonAfterWs : List Char → Bool
  | [] => false
  | c :: r => if c = ':' then true else if isWsC c then colonAfterWs r else false

/-- Whether `params[1].match(/(\w+(?=:|\s+:))/g)` finds at least one match
(plugin.ts line 109): some word character is followed by optional
whitespace and a colon. -/
def matchesWordColon (s : String) : Bool :=
  go s.data
where
  go : List Char → Bool
    | [] => false
    | c :: r => (isWordC c && colonAfterWs r) || go r

/-- A JSON translation value: a leaf string or an object mapping keys to
further values (the `Translation` type of the tools). -/
inductive JVal : Type where
  | str : String → JVal
  | obj : List (String × JVal) → JVal

/-- JavaScript truthiness of a translation node: the empty string is the
only falsy value that occurs. -/
def jsTruthyVal : JVal → Bool
  | .str s => s ≠ ""
  | .obj _ => true

/-- JavaScript property access `v[k]` on a translation node, as `Option`
(`none` = `undefined`): a leaf has no (modelled) properties, an object
yields the bound value. -/
def getProp (v : JVal) (k : String) : Option JVal :=
  match v with
  | .str _ => none
  | .obj es => lookupA es k

/-- One step of the reduce in `getValue` (plugin.ts line 179):
`(acc && acc[cur] != null) ? acc[cur] : null`. -/
def reduceStep (acc : Option JVal) (cur : String) : Option JVal :=
  match acc with
  | none => none
  | some v => if jsTruthyVal v then getProp v cur else none

/-- The reduce of `getValue`: split the key on the separator and walk the
tree from `data` (which may itself be absent). -/
def walkPath (key : String) (keySeparator : String) (data : Option JVal) :
    Option JVal :=
  (jsSplitStr key keySeparator).foldl reduceStep data

/-- `args.replace(/(^(\x7b))|(\x7d)$/g, '')` from `handleParams`: strip a
leading opening brace and a trailing closing brace. -/
def stripBraces (args : String) : String :=
  let l := match args.data with
    | c :: r => if c = lbC then r else c :: r
    | [] => []
  let l := match l.reverse with
    | c :: r => if c = rbC then r.reverse else (c :: r).reverse
    | [] => []
  String.mk l

/-!
The placeholder pattern `/\x7b\x7b\s?([^\x7b\x7d\s]*)\s?\x7d\x7d/g` used by
`handleParams` to substitute `{{ name }}` placeholders.
-/

/-- Characters allowed in a placeholder name: `[^\x7b\x7d\s]`. -/
def isPhC (c : Char) : Bool := !(c = lbC || c = rbC || isWsC c)

/-- Closing `\x7d\x7d` of the placeholder pattern. -/
def phClose : List Char → Option (List Char)
  | a :: b :: rest => if a = rbC && b = rbC then some rest else none
  | _ => none

/-- Body of the placeholder pattern after the optional leading whitespace:
the name, then greedily one optional whitespace character, then the closing
braces.  Returns the captured name and the remainder after the match. -/
def phCore (l : List Char) : Option (List Char × List Char) :=
  let name := l.takeWhile isPhC
  let rest := l.dropWhile isPhC
  (match rest with
    | c :: r => if isWsC c then (phClose r).map (fun rem => (name, rem)) else none
    | [] => none) <|>
  (phClose rest).map (fun rem => (name, rem))

/-- Attempt of the placeholder pattern at the start of `l`: `\x7b\x7b`, a
greedy optional whitespace, the name, an optional whitespace, `\x7d\x7d`. -/
def phAt (l : List Char) : Option (List Char × List Char) :=
  match l with
  | a :: b :: rest =>
    if a = lbC && b = lbC then
      (match rest with
        | c :: r => if isWsC c then phCore r else none
        | [] => none) <|>
      phCore rest
    else none
  | _ => none

/-- The global placeholder replace of `handleParams` (plugin.ts lines
193–195): every `{{ name }}` whose name equals `pname` is replaced by the
interpolation expression for `rep`; other placeholders are kept verbatim and
scanning resumes after them.  The fuel is the input length; every step
consumes at least one character. -/
def replacePh (pname rep : String) : Nat → List Char → List Char
  | 0, l => l
  | fuel + 1, l =>
    match l with
    | [] => []
    | c :: r =>
      match phAt l with
      | some (name, rem) =>
        (if String.mk name = pname then (interpolateParam rep).data
         else l.take (l.length - rem.length)) ++ replacePh pname rep fuel rem
      | none => c :: replacePh pname rep fuel r

/-- `handleParams` (plugin.ts lines 184–199): strip the braces of the
interpolation-params object, split it into `name: expr` pairs, substitute
each pair into the value's placeholders, and wrap the result in backticks.
The declared TypeScript return type admits `undefined`, hence the `Option`;
the body always returns a defined value. -/
def handleParams (value : String) (args : String) : Option String :=
  let args := stripBraces args
  let params := getParams args
  let value := params.foldl
    (fun v param =>
      let parts := (jsSplitStr param ":").map (fun x => String.mk (jsTrim x.data))
      if parts.length = 2 then
        String.mk (replacePh (parts.headD "") ((parts.drop 1).headD "")
          v.data.length v.data)
      else v)
    value
  some (quoteValue value)

/-- `getValue` (plugin.ts lines 173–182): walk the tree along the dotted
key; only a terminal string leaf yields a value, which is parameter-
substituted when a truthy args text is present, and backtick-quoted. -/
def getValue (key : String) (data : Option JVal) (args : Option String)
    (keySeparator : String) : Option String :=
  match walkPath key keySeparator data with
  | some (.str s) =>
    match args with
    | some a => if a = "" then some (quoteValue s) else handleParams s a
    | none => some (quoteValue s)
  | _ => none

/-- Modelled from the spec: the global locale variable emitted in generated
fallback chains.  It is exported by `tools/inline/constants.ts`, which is not
among the provided sources; §8 of the spec renders it as `lang` in the
generated line, which this constant follows. -/
def globalLang : String := "lang"

/-- The resolved options of the inline plugin that the transform reads
(`Required<QwikSpeakInlineOptions>` restricted to the fields used by
`inline`). -/
structure InlineOpts : Type where
  supportedLangs : List String
  defaultLang : String
  keySeparator : String
  keyValueSeparator : String

/-- The top-level translation dataset: one tree per language
(`translation[lang]` in the source). -/
def Translation : Type := List (String × JVal)

/-- `buildLine` (plugin.ts lines 232–239): for every non-default supported
language, in order, emit the term
`<globalLang> === <backtick-quoted lang> && <value> || `, then terminate
with the default language's value.  A language absent from the map renders
as the text `undefined` (JavaScript template-literal semantics of
`values.get`). -/
def buildLine (values : List (String × String)) (supportedLangs : List String)
    (defaultLang : String) : String :=
  let translatedLine := (supportedLangs.filter (fun x => x ≠ defaultLang)).foldl
    (fun acc lang =>
      acc ++ (globalLang ++ " === " ++ quoteValue lang ++ " && " ++
        jsUndefToStr (lookupA values lang) ++ " || "))
    ""
  translatedLine ++ jsUndefToStr (lookupA values defaultLang)

/-- One iteration of the value-resolution loop of `inline` (plugin.ts lines
141–148): a language whose value resolves is added to the map; a failed
resolution appends a missing-value log line instead. -/
def rvStep (translation : Translation) (opts : InlineOpts) (key : String)
    (args : Option String) (acc : List (String × String) × List String)
    (lang : String) : List (String × String) × List String :=
  if jsFalsyOpt (getValue key (lookupA translation lang) args opts.keySeparator) then
    (acc.1, acc.2 ++ [lang ++ " - missing value for key: " ++ key])
  else
    (setAssoc acc.1 lang
      ((getValue key (lookupA translation lang) args opts.keySeparator).getD ""),
     acc.2)

/-- The value-resolution loop of `inline` (plugin.ts lines 137–148): the
map of values seeded with the default language's value, folded with
`rvStep` over the non-default supported languages. -/
def resolveValues (translation : Translation) (opts : InlineOpts) (key : String)
    (args : Option String) (supportedLangs : List String) (defaultLang : String)
    (defaultValue : String) : List (String × String) × List String :=
  (supportedLangs.filter (fun x => x ≠ defaultLang)).foldl
    (rvStep translation opts key args)
    ([(defaultLang, defaultValue)], [])

/-- The per-call language selection of `inline` (plugin.ts lines 113–125):
either the configured language list and default, or the single language
chosen by `multilingual` acting as both. -/
def activeLangs (optionalLang : Option String) (opts : InlineOpts) :
    List String × String :=
  match optionalLang with
  | none => (opts.supportedLangs, opts.defaultLang)
  | some l => ([l], l)

/-- The body of the `inline` loop for one matched call (plugin.ts lines
100–151), excluding the final text substitution: classification of the
signature, language selection, key and value resolution, and the generated
line.  Returns the replacement line (`none` when the call is skipped) and
the log lines emitted.  The signature extraction
`originalFn.match(translateFnSignatureMatch)?.[0]` is abstracted by `sig`
(the regex lives in `constants.ts`, not among the provided sources).  The
empty-params case indexes `params[0]`, which is undefined behaviour in the
source; a well-formed signature match always contains at least the key
argument, and the model skips the call there. -/
def processCall (sig : String → Option String) (translation : Translation)
    (opts : InlineOpts) (originalFn : String) : Option String × List String :=
  match sig originalFn with
  | none => (none, [])
  | some args =>
    if args = "" then (none, [])
    else
      let params := getParams args
      if jsTruthyOpt (params.get? 1) && ! matchesWordColon ((params.get? 1).getD "")
      then (none, [])
      else
        match params with
        | [] => (none, [])
        | p0 :: _ =>
          let pair := activeLangs (multilingual (params.get? 3) opts.supportedLangs) opts
          let supportedLangs := pair.1
          let defaultLang := pair.2
          let key := getKey p0 opts.keyValueSeparator
          let defaultValue := getValue key (lookupA translation defaultLang)
            (params.get? 1) opts.keySeparator
          if jsFalsyOpt defaultValue then
            (none, [defaultLang ++ " - missing value for key: " ++ key ++ " - Skip"])
          else
            let vl := resolveValues translation opts key (params.get? 1)
              supportedLangs defaultLang (defaultValue.getD "")
            (some (buildLine vl.1 supportedLangs defaultLang), vl.2)

/-- `GetSubstitution` of ECMA-262 for a string pattern (no capture groups):
expansion of `$$`, `$&`, `$` + backtick and `$` + quote in the replacement
text; any other `$` is literal. -/
def dollarExpand (matched pre post : List Char) : List Char → List Char
  | [] => []
  | [c] => [c]
  | c :: d :: r2 =>
    if c = '$' then
      if d = '$' then '$' :: dollarExpand matched pre post r2
      else if d = '&' then matched ++ dollarExpand matched pre post r2
      else if d = bqC then pre ++ dollarExpand matched pre post r2
      else if d = sqC then post ++ dollarExpand matched pre post r2
      else c :: dollarExpand matched pre post (d :: r2)
    else c :: dollarExpand matched pre post (d :: r2)

/-- JavaScript `code.replace(pat, repl)` with string arguments: replace the
first occurrence of `pat`, expanding `$`-escapes in the replacement; the
code is returned unchanged when `pat` does not occur. -/
def jsReplaceFirst (code pat repl : String) : String :=
  match findSub code.data pat.data with
  | none => code
  | some i =>
    let pre := code.data.take i
    let post := code.data.drop (i + pat.data.length)
    String.mk (pre ++ dollarExpand pat.data pre post repl.data ++ post)

/-- One iteration of the `inline` loop: process the call and, when a line
was generated, substitute it for the first occurrence of the original call
text (plugin.ts line 154). -/
def inlineStep (sig : String → Option String) (translation : Translation)
    (opts : InlineOpts) (st : String × List String) (originalFn : String) :
    String × List String :=
  let pcall := processCall sig translation opts originalFn
  (match pcall.1 with
   | some line => jsReplaceFirst st.1 originalFn line
   | none => st.1,
   st.2 ++ pcall.2)

/-- Modelled from the spec: the Expression Scanner (§4.1).  The regexes
`translateFnMatch` and `translateFnSignatureMatch` live in
`tools/inline/constants.ts`, which is not among the provided sources;
`matchAll` stands for `code.match(translateFnMatch)` (the ordered list of
matched call texts, empty when the match is `null`) and `signature` for
`originalFn.match(translateFnSignatureMatch)?.[0]` (the argument-list text
of one call). -/
structure Scanner : Type where
  matchAll : String → List String
  signature : String → Option String

/-- `inline` (plugin.ts lines 89–159): `none` models the `null` return (no
matches, no transformation); otherwise every matched call is processed in
order over the running code text.  The second component collects the log
lines. -/
def inline (sc : Scanner) (code : String) (translation : Translation)
    (opts : InlineOpts) : Option String × List String :=
  match sc.matchAll code with
  | [] => (none, [])
  | ms =>
    let res := ms.foldl (inlineStep sc.signature translation opts) (code, [])
    (some res.1, res.2)

/-- The key/default split of the extraction pipeline
(`qwikSpeakExtract`, extract/index.ts line 189):
`[key, defaultValue] = key.split(resolvedOptions.keyValueSeparator)` —
array destructuring takes the first split element as the key and the second
(or `undefined`) as the default value. -/
def extractKeyDefault (key : String) (keyValueSeparator : String) :
    String × Option String :=
  let parts := jsSplitStr key keyValueSeparator
  (parts.headD "", parts.get? 1)

/-- Concatenation of a list of strings (used to state the shape of the
generated fallback chain). -/
def sjoin : List String → String
  | [] => ""
  | s :: r => s ++ sjoin r

/-- The fallback-chain term emitted by `buildLine` for one non-default
language. -/
def lineTerm (values : List (String × String)) (lang : String) : String :=
  globalLang ++ " === " ++ quoteValue lang ++ " && " ++
    jsUndefToStr (lookupA values lang) ++ " || "

/-!  Concrete data used by example-level theorems and witnesses. -/

/-- The tree `{SUBKEY1: {AA: 'aa'}}` of the spec's `getValue` examples. -/
def exTree : JVal := .obj [("SUBKEY1", .obj [("AA", .str "aa")])]

/-- A flat tree with two leaves. -/
def keyTree : JVal := .obj [("KEY1", .str "key1"), ("KEY2", .str "key2")]

/-- Dataset with values for both languages. -/
def trEx : Translation :=
  [("en-US", .obj [("greet", .str "Hello")]), ("it-IT", .obj [("greet", .str "Ciao")])]

/-- Dataset where the non-default language misses the key. -/
def trMissingIt : Translation :=
  [("en-US", .obj [("greet", .str "Hello")]), ("it-IT", .obj [])]

/-- Dataset where the default language misses the key. -/
def trMissingDefault : Translation :=
  [("en-US", .obj []), ("it-IT", .obj [("greet", .str "Ciao")])]

/-- Dataset where the default language holds the empty-string leaf the
extraction seeds for keys without an inline default. -/
def trEmptyLeaf : Translation := [("en-US", .obj [("greet", .str "")])]

/-- Options: supported `[it-IT, en-US]`, default `en-US`. -/
def optsEx : InlineOpts := ⟨["it-IT", "en-US"], "en-US", ".", "@@"⟩

/-- Options with a single supported language. -/
def optsSingle : InlineOpts := ⟨["en-US"], "en-US", ".", "@@"⟩

/-- A concrete matched call text. -/
def exCall : String := "t(\x27greet\x27)"

/-- A signature extractor returning the argument text of `exCall`. -/
def exSig : String → Option String := fun _ => some "\x27greet\x27"

/-- A scanner matching exactly `exCall`. -/
def scEx : Scanner := ⟨fun _ => [exCall], exSig⟩

/-- A scanner whose signature extraction fails (dynamic call). -/
def scNoSig : Scanner := ⟨fun _ => [exCall], fun _ => none⟩

/-!  Helper lemmas. -/

theorem sjoin_append (A B : List String) : sjoin (A ++ B) = sjoin A ++ sjoin B := by
  induction A with
  | nil => simp [sjoin, String.empty_append]
  | cons x xs ih => simp [sjoin, ih, String.append_assoc]

theorem buildLine_fold (values : List (String × String)) (L : List String)
    (acc : String) :
    L.foldl (fun a lang => a ++ (globalLang ++ " === " ++ quoteValue lang ++
      " && " ++ jsUndefToStr (lookupA values lang) ++ " || ")) acc =
    acc ++ sjoin (L.map (lineTerm values)) := by
  induction L generalizing acc with
  | nil => simp [sjoin, String.append_empty]
  | cons x xs ih =>
    simp only [List.foldl_cons, List.map_cons, sjoin]
    rw [ih]
    simp [lineTerm, String.append_assoc]

theorem buildLine_sjoin (values : List (String × String)) (sup : List String)
    (dl : String) :
    buildLine values sup dl =
      sjoin (((sup.filter (fun x => x ≠ dl)).map (lineTerm values))) ++
        jsUndefToStr (lookupA values dl) := by
  simp only [buildLine, buildLine_fold, String.empty_append]

theorem foldl_inlineStep_skip (sig : String → Option String) (tr : Translation)
    (opts : InlineOpts) (ms : List String) :
    ∀ st : String × List String,
      (∀ m ∈ ms, (processCall sig tr opts m).1 = none) →
      (ms.foldl (inlineStep sig tr opts) st).1 = st.1 := by
  induction ms with
  | nil => intro st _; rfl
  | cons m ms ih =>
    intro st h
    have hm := h m (by simp)
    have hrest : ∀ x ∈ ms, (processCall sig tr opts x).1 = none := by
      intro x hx; exact h x (by simp [hx])
    simp only [List.foldl_cons]
    rw [ih _ hrest]
    simp [inlineStep, hm]

theorem walkPath_absent (key sep : String) : walkPath key sep none = none := by
  unfold walkPath
  generalize jsSplitStr key sep = l
  induction l with
  | nil => rfl
  | cons c ls ih => simpa [reduceStep] using ih

/-- C6: `getValue` returns no value (`none`), never an exception, whenever
the walk does not end on a string leaf — in particular when a dotted-key
segment is missing, when the terminal node is an interior node, or when the
tree itself is absent; a value is returned only when the walk ends on a
string.  Both spec examples on `{SUBKEY1: {AA: 'aa'}}` yield no value. -/
theorem getValue_leaf_only :
    (∀ (key : String) (data : Option JVal) (args : Option String) (sep : String),
        (getValue key data args sep).isSome = true →
        ∃ s, walkPath key sep data = some (.str s)) ∧
    (∀ (key : String) (args : Option String) (sep : String),
        getValue key none args sep = none) ∧
    getValue "SUBKEY1" (some exTree) none "." = none ∧
    getValue "SUBKEY1.BB" (some exTree) none "." = none := by
  refine ⟨?_, ?_, by decide, by decide⟩
  · intro key data args sep h
    cases hw : walkPath key sep data with
    | none => rw [getValue, hw] at h; simp at h
    | some v =>
      cases v with
      | str s => exact ⟨s, rfl⟩
      | obj es => rw [getValue, hw] at h; simp at h
  · intro key args sep
    rw [getValue, walkPath_absent]

theorem getValue_leaf_only_witness :
    ∃ s, walkPath "KEY1" "." (some keyTree) = some (.str s) :=
  getValue_leaf_only.1 "KEY1" (some keyTree) none "." (by decide)

/-- C10: whenever `getValue` returns a value, the text is wrapped in
backticks (a template literal), and `handleParams` always returns a defined
backtick-quoted string (its declared `undefined`-returning branch is never
taken). -/
theorem resolved_values_backtick_wrapped :
    (∀ (value args : String), ∃ m, handleParams value args = some (quoteValue m)) ∧
    (∀ (key : String) (data : Option JVal) (args : Option String) (sep val : String),
        getValue key data args sep = some val →
        ∃ m, val = "\x60" ++ m ++ "\x60") := by
  have h1 : ∀ (value args : String), ∃ m, handleParams value args = some (quoteValue m) := by
    intro value args
    exact ⟨_, rfl⟩
  refine ⟨h1, ?_⟩
  intro key data args sep val h
  cases hw : walkPath key sep data with
  | none => rw [getValue, hw] at h; simp at h
  | some v =>
    cases v with
    | obj es => rw [getValue, hw] at h; simp at h
    | str s =>
      rw [getValue, hw] at h
      cases args with
      | none => exact ⟨s, (Option.some.inj h).symm⟩
      | some a =>
        have h' : (if a = "" then some (quoteValue s) else handleParams s a) =
            some val := h
        by_cases ha : a = ""
        · rw [if_pos ha] at h'
          exact ⟨s, (Option.some.inj h').symm⟩
        · rw [if_neg ha] at h'
          obtain ⟨m, hm⟩ := h1 s a
          rw [hm] at h'
          exact ⟨m, (Option.some.inj h').symm⟩

theorem resolved_values_backtick_wrapped_witness :
    ∃ m, "\x60key1\x60" = "\x60" ++ m ++ "\x60" :=
  resolved_values_backtick_wrapped.2 "KEY1" (some keyTree) none "." "\x60key1\x60"
    (by decide)

/-- C9: an empty-string leaf at the default locale is not a missing value:
`getValue` returns the backtick-quoted empty string, which is truthy, so the
missing-value skip branch is not taken and the call is inlined with an empty
template literal as the chain's default term. -/
theorem empty_leaf_not_missing :
    (∀ (key : String) (data : Option JVal) (sep : String),
        walkPath key sep data = some (.str "") →
        getValue key data none sep = some (quoteValue "") ∧
        jsFalsyOpt (getValue key data none sep) = false) ∧
    inline scEx "a = t(\x27greet\x27);" trEmptyLeaf optsSingle =
      (some "a = \x60\x60;", []) := by
  constructor
  · intro key data sep hw
    rw [getValue, hw]
    exact ⟨rfl, by decide⟩
  · decide

theorem empty_leaf_not_missing_witness :
    getValue "greet" (some (.obj [("greet", .str "")])) none "." =
      some (quoteValue "") ∧
    jsFalsyOpt (getValue "greet" (some (.obj [("greet", .str "")])) none ".") =
      false :=
  empty_leaf_not_missing.1 "greet" (some (.obj [("greet", .str "")])) "." (by rfl)

/-- C7: a literal fourth argument whose quote-trimmed text equals one of the
supported locales restricts the call to exactly that locale, which then also
acts as the default; a non-matching literal is ignored and the configured
list with its configured default is used. -/
theorem multilingual_restricts_locale :
    (∀ (p : String) (langs : List String), p ≠ "" → trimQuotes p ∈ langs →
        multilingual (some p) langs = some (trimQuotes p)) ∧
    (∀ (p : String) (langs : List String), trimQuotes p ∉ langs →
        multilingual (some p) langs = none) ∧
    (∀ (opts : InlineOpts) (l : String), activeLangs (some l) opts = ([l], l)) ∧
    (∀ opts : InlineOpts,
        activeLangs none opts = (opts.supportedLangs, opts.defaultLang)) := by
  refine ⟨?_, ?_, fun _ _ => rfl, fun _ => rfl⟩
  · intro p langs hp hmem
    have hs : (langs.find? (fun x => x = trimQuotes p)).isSome := by
      rw [List.find?_isSome]
      exact ⟨trimQuotes p, hmem, by simp⟩
    obtain ⟨y, hy⟩ := Option.isSome_iff_exists.1 hs
    have hey : y = trimQuotes p := by
      have := List.find?_some hy
      simpa using this
    simp only [multilingual, if_neg hp]
    rw [hy, hey]
  · intro p langs hmem
    by_cases hp : p = ""
    · simp [multilingual, hp]
    · have hn : langs.find? (fun x => x = trimQuotes p) = none := by
        rw [List.find?_eq_none]
        intro x hx
        simp only [decide_eq_true_eq]
        intro he
        exact hmem (he ▸ hx)
      simp [multilingual, if_neg hp, hn]

theorem multilingual_restricts_locale_witness :
    multilingual (some "\x27it-IT\x27") ["it-IT", "en-US"] = some "it-IT" ∧
    multilingual (some "\x27fr-FR\x27") ["it-IT", "en-US"] = none ∧
    activeLangs (some "it-IT") optsEx = (["it-IT"], "it-IT") :=
  ⟨(multilingual_restricts_locale.1 "\x27it-IT\x27" ["it-IT", "en-US"] (by decide)
      (by decide)).trans (by decide),
   multilingual_restricts_locale.2.1 "\x27fr-FR\x27" ["it-IT", "en-US"] (by decide),
   multilingual_restricts_locale.2.2.1 optsEx "it-IT"⟩

/-!  Lemmas about `findSub` and `splitGo` for the key/default split. -/

theorem findSub_nil {pat : List Char} (h : pat ≠ []) : findSub [] pat = none := by
  cases pat with
  | nil => exact absurd rfl h
  | cons p ps => simp [findSub, findSub.go, hasLead]

theorem findSub_some_ne_nil {s pat : List Char} {i : Nat} (hpat : pat ≠ [])
    (h : findSub s pat = some i) : s ≠ [] := by
  intro e
  subst e
  rw [findSub_nil hpat] at h
  cases h

theorem hasLead_decomp : ∀ (pat l : List Char), hasLead pat l = true →
    pat ++ l.drop pat.length = l := by
  intro pat
  induction pat with
  | nil => intro l _; simp
  | cons p ps ih =>
    intro l h
    cases l with
    | nil => simp [hasLead] at h
    | cons c cs =>
      simp only [hasLead, Bool.and_eq_true, decide_eq_true_eq] at h
      simp only [List.length_cons, List.drop_succ_cons, List.cons_append, h.1]
      rw [ih cs h.2]

theorem findSub_go_spec (pat : List Char) : ∀ (l : List Char) (i j : Nat),
    findSub.go pat l i = some j →
    i ≤ j ∧ hasLead pat (l.drop (j - i)) = true := by
  intro l
  induction l with
  | nil =>
    intro i j h
    rw [findSub.go] at h
    by_cases hl : hasLead pat []
    · rw [if_pos hl] at h
      cases h
      exact ⟨Nat.le_refl _, by simpa using hl⟩
    · rw [if_neg hl] at h
      cases h
  | cons c cs ih =>
    intro i j h
    rw [findSub.go] at h
    by_cases hl : hasLead pat (c :: cs)
    · rw [if_pos hl] at h
      cases h
      exact ⟨Nat.le_refl _, by simpa using hl⟩
    · rw [if_neg hl] at h
      obtain ⟨h1, h2⟩ := ih (i + 1) j h
      refine ⟨by omega, ?_⟩
      have : j - i = (j - (i + 1)) + 1 := by omega
      rw [this, List.drop_succ_cons]
      exact h2

theorem findSub_decomp {s pat : List Char} {i : Nat}
    (h : findSub s pat = some i) :
    s = s.take i ++ pat ++ s.drop (i + pat.length) := by
  have hspec := findSub_go_spec pat s 0 i h
  have hlead : hasLead pat (s.drop i) = true := by simpa using hspec.2
  have hdec := hasLead_decomp pat (s.drop i) hlead
  calc s = s.take i ++ s.drop i := (List.take_append_drop i s).symm
    _ = s.take i ++ (pat ++ (s.drop i).drop pat.length) := by rw [hdec]
    _ = s.take i ++ pat ++ (s.drop i).drop pat.length := by
        rw [List.append_assoc]
    _ = s.take i ++ pat ++ s.drop (i + pat.length) := by
        rw [List.drop_drop, Nat.add_comm]

theorem splitGo_none {s sep : List Char} (h : findSub s sep = none)
    (fuel : Nat) : splitGo sep fuel s = [s] := by
  cases fuel <;> simp [splitGo, h]

theorem splitGo_some {s sep : List Char} {i : Nat} (h : findSub s sep = some i)
    (fuel : Nat) :
    splitGo sep (fuel + 1) s =
      s.take i :: splitGo sep fuel (s.drop (i + sep.length)) := by
  simp [splitGo, h]

theorem jsSplitStr_some {k sep : String} {i : Nat} (hsep : sep.data ≠ [])
    (h : findSub k.data sep.data = some i) :
    jsSplitStr k sep = String.mk (k.data.take i) ::
      (splitGo sep.data (k.data.length - 1)
        (k.data.drop (i + sep.data.length))).map String.mk := by
  unfold jsSplitStr
  rw [if_neg hsep]
  have hne : k.data ≠ [] := findSub_some_ne_nil hsep h
  obtain ⟨c, r, e⟩ := List.exists_cons_of_ne_nil hne
  rw [e] at h ⊢
  simp only [List.length_cons, Nat.add_sub_cancel]
  rw [splitGo_some h]
  simp

/-- C5 (amended): in both pipelines the key is the text before the first
occurrence of the key/value separator; the extraction pipeline's default
value, however, is the text strictly between the first and the second
occurrence (`[key, defaultValue] = key.split(sep)` takes only the second
split element), so a default value cannot itself carry the separator. -/
theorem keyValue_split_first_occurrence :
    (∀ (key sep : String) (i : Nat), sep.data ≠ [] →
        findSub key.data sep.data = some i →
        (extractKeyDefault key sep).1 = String.mk (key.data.take i)) ∧
    (∀ (key sep : String) (i : Nat), sep.data ≠ [] →
        findSub key.data sep.data = some i →
        findSub (key.data.drop (i + sep.data.length)) sep.data = none →
        (extractKeyDefault key sep).2 =
          some (String.mk (key.data.drop (i + sep.data.length)))) ∧
    (∀ (key sep : String) (i j : Nat), sep.data ≠ [] →
        findSub key.data sep.data = some i →
        findSub (key.data.drop (i + sep.data.length)) sep.data = some j →
        (extractKeyDefault key sep).2 =
          some (String.mk ((key.data.drop (i + sep.data.length)).take j))) ∧
    (∀ (p sep : String) (i : Nat), sep.data ≠ [] →
        findSub (trimQuotes p).data sep.data = some i →
        getKey p sep = String.mk ((trimQuotes p).data.take i)) := by
  refine ⟨?_, ?_, ?_, ?_⟩
  · intro key sep i hsep h
    unfold extractKeyDefault
    rw [jsSplitStr_some hsep h]
    rfl
  · intro key sep i hsep h hrest
    unfold extractKeyDefault
    rw [jsSplitStr_some hsep h, splitGo_none hrest]
    rfl
  · intro key sep i j hsep h hrest
    have hne : (key.data.drop (i + sep.data.length)) ≠ [] :=
      findSub_some_ne_nil hsep hrest
    have hlen : 0 < (key.data.drop (i + sep.data.length)).length :=
      List.length_pos.2 hne
    rw [List.length_drop] at hlen
    have hsl : 0 < sep.data.length := List.length_pos.2 hsep
    obtain ⟨f, hf⟩ : ∃ f, key.data.length - 1 = f + 1 :=
      ⟨key.data.length - 2, by omega⟩
    unfold extractKeyDefault
    rw [jsSplitStr_some hsep h, hf, splitGo_some hrest]
    rfl
  · intro p sep i hsep h
    unfold getKey
    rw [jsSplitStr_some hsep h]
    rfl

theorem keyValue_split_first_occurrence_witness :
    (extractKeyDefault "k@@a@@b" "@@").1 = "k" ∧
    (extractKeyDefault "k@@a@@b" "@@").2 = some "a" ∧
    getKey "\x27k@@a@@b\x27" "@@" = "k" :=
  ⟨(keyValue_split_first_occurrence.1 "k@@a@@b" "@@" 1 (by decide)
      (by decide)).trans (by decide),
   (keyValue_split_first_occurrence.2.2.1 "k@@a@@b" "@@" 1 1 (by decide)
      (by decide) (by decide)).trans (by decide),
   (keyValue_split_first_occurrence.2.2.2 "\x27k@@a@@b\x27" "@@" 1 (by decide)
      (by decide)).trans (by decide)⟩

/-- C5 counterexample: with default value text containing the separator, the
extraction split keeps only the text up to the second occurrence — the
default value `a@@b` claimed by the spec is truncated to `a`. -/
theorem extract_default_truncated_cex :
    extractKeyDefault "k@@a@@b" "@@" = ("k", some "a") ∧
    (extractKeyDefault "k@@a@@b" "@@").2 ≠ some "a@@b" := by
  decide

/-- C8 counterexample: a comma inside a back-quoted (template-literal)
argument is treated as a top-level separator, because the template-literal
alternative of the split pattern opens with a single quote instead of a
backtick; the single argument `\x60a, b\x60` is split in two. -/
theorem getParams_backtick_comma_cex :
    getParams "\x60a, b\x60" = ["\x60a", "b\x60"] ∧
    getParams "\x60a, b\x60" ≠ ["\x60a, b\x60"] := by
  decide

/-- C8 (amended): `getParams` never splits at a comma inside a single- or
double-quoted string, and protects a comma inside braces only when a closing
brace follows before any opening brace — so the spec's example input yields
exactly two top-level arguments, but a comma inside a back-quoted string, or
one followed by a nested `\x7b` before the closing `\x7d`, is split on. -/
theorem getParams_top_level_commas :
    getParams "\x22key\x22, \x7b a: \x27x, y\x27, b: 2 \x7d" =
      ["\x22key\x22", "\x7b a: \x27x, y\x27, b: 2 \x7d"] ∧
    getParams "\x27a,b\x27, 2" = ["\x27a,b\x27", "2"] ∧
    getParams "\x22a,b\x22, 2" = ["\x22a,b\x22", "2"] ∧
    getParams "\x7b a: 1, b: \x7b c: 2 \x7d \x7d" =
      ["\x7b a: 1", "b: \x7b c: 2 \x7d \x7d"] := by
  decide

/-- C2 counterexample: in the generated line the locale literal is wrapped
in backticks (`quoteValue`), not in single quotes, so the concrete line of
the spec's example does not match. -/
theorem buildLine_locale_quote_cex :
    buildLine [("en-US", "\x60Hello\x60"), ("it-IT", "\x60Ciao\x60")]
        ["it-IT", "en-US"] "en-US" =
      "lang === \x60it-IT\x60 && \x60Ciao\x60 || \x60Hello\x60" ∧
    buildLine [("en-US", "\x60Hello\x60"), ("it-IT", "\x60Ciao\x60")]
        ["it-IT", "en-US"] "en-US" ≠
      "lang === \x27it-IT\x27 && \x60Ciao\x60 || \x60Hello\x60" := by
  decide

/-- C2 (amended): the fallback-chain builder emits, for every non-default
supported locale in list order, the term
`<globalLang> === \x60<locale>\x60 && <value> || ` (locale as a
backtick-quoted literal), concatenated and terminated by the default
locale's value with no trailing operator; for the spec's example data the
generated line carries backticks around `it-IT`. -/
theorem buildLine_chain_shape :
    (∀ (values : List (String × String)) (sup : List String) (dl : String),
        buildLine values sup dl =
          sjoin ((sup.filter (fun x => x ≠ dl)).map (lineTerm values)) ++
            jsUndefToStr (lookupA values dl)) ∧
    (∀ (values : List (String × String)) (lang : String),
        lineTerm values lang =
          globalLang ++ " === " ++ quoteValue lang ++ " && " ++
            jsUndefToStr (lookupA values lang) ++ " || ") ∧
    buildLine [("en-US", "\x60Hello\x60"), ("it-IT", "\x60Ciao\x60")]
        ["it-IT", "en-US"] "en-US" =
      "lang === \x60it-IT\x60 && \x60Ciao\x60 || \x60Hello\x60" :=
  ⟨buildLine_sjoin, fun _ _ => rfl, by decide⟩

theorem lookupA_single_ne {x k : String} {v : String} (h : x ≠ k) :
    lookupA [(x, v)] k = none := by
  simp [lookupA, List.find?, h]

theorem lookupA_cons (a : String × String) (m : List (String × String))
    (k : String) :
    lookupA (a :: m) k = if a.1 = k then some a.2 else lookupA m k := by
  simp only [lookupA, List.find?_cons]
  by_cases hk : a.1 = k
  · simp [hk]
  · simp [hk]

theorem lookupA_map_set_ne {x k v : String} :
    ∀ m : List (String × String), x ≠ k →
      lookupA (m.map (fun p => if p.1 = x then (x, v) else p)) k = lookupA m k := by
  intro m h
  induction m with
  | nil => rfl
  | cons a m ih =>
    simp only [List.map_cons]
    by_cases ha : a.1 = x
    · rw [if_pos ha, lookupA_cons, lookupA_cons]
      rw [if_neg (show ((x, v) : String × String).1 ≠ k from h),
        if_neg (show a.1 ≠ k by rw [ha]; exact h)]
      exact ih
    · rw [if_neg ha, lookupA_cons, lookupA_cons]
      by_cases hk : a.1 = k
      · rw [if_pos hk, if_pos hk]
      · rw [if_neg hk, if_neg hk]
        exact ih

theorem lookupA_append_single_ne {x k v : String} :
    ∀ m : List (String × String), x ≠ k →
      lookupA (m ++ [(x, v)]) k = lookupA m k := by
  intro m h
  induction m with
  | nil => simpa using lookupA_single_ne h
  | cons a m ih =>
    rw [List.cons_append, lookupA_cons, lookupA_cons]
    by_cases hk : a.1 = k
    · rw [if_pos hk, if_pos hk]
    · rw [if_neg hk, if_neg hk]
      exact ih

theorem lookupA_setAssoc_ne {m : List (String × String)} {x k v : String}
    (h : x ≠ k) : lookupA (setAssoc m x v) k = lookupA m k := by
  unfold setAssoc
  by_cases ha : m.any (fun p => p.1 = x)
  · rw [if_pos ha]
    exact lookupA_map_set_ne m h
  · rw [if_neg ha]
    exact lookupA_append_single_ne m h

theorem rvFold_logs_mono (tr : Translation) (opts : InlineOpts) (key : String)
    (args : Option String) :
    ∀ (L : List String) (acc : List (String × String) × List String),
      ∃ ext, (L.foldl (rvStep tr opts key args) acc).2 = acc.2 ++ ext := by
  intro L
  induction L with
  | nil => intro acc; exact ⟨[], by simp⟩
  | cons x xs ih =>
    intro acc
    obtain ⟨ext, he⟩ := ih (rvStep tr opts key args acc x)
    rw [List.foldl_cons, he]
    by_cases hx : jsFalsyOpt (getValue key (lookupA tr x) args opts.keySeparator)
    · refine ⟨[x ++ " - missing value for key: " ++ key] ++ ext, ?_⟩
      rw [rvStep, if_pos hx]
      simp [List.append_assoc]
    · refine ⟨ext, ?_⟩
      rw [rvStep, if_neg hx]

theorem rvFold_logs_mem (tr : Translation) (opts : InlineOpts) (key : String)
    (args : Option String) :
    ∀ (L : List String) (acc : List (String × String) × List String)
      (lang : String), lang ∈ L →
      jsFalsyOpt (getValue key (lookupA tr lang) args opts.keySeparator) = true →
      (lang ++ " - missing value for key: " ++ key) ∈
        (L.foldl (rvStep tr opts key args) acc).2 := by
  intro L
  induction L with
  | nil => intro acc lang h; simp at h
  | cons x xs ih =>
    intro acc lang hmem hfal
    rcases List.mem_cons.1 hmem with he | hm
    · subst he
      rw [List.foldl_cons]
      obtain ⟨ext, hext⟩ := rvFold_logs_mono tr opts key args xs
        (rvStep tr opts key args acc lang)
      rw [hext, rvStep, if_pos hfal]
      simp
    · rw [List.foldl_cons]
      exact ih _ lang hm hfal

theorem rvFold_lookup_none (tr : Translation) (opts : InlineOpts) (key : String)
    (args : Option String) :
    ∀ (L : List String) (acc : List (String × String) × List String)
      (lang : String),
      jsFalsyOpt (getValue key (lookupA tr lang) args opts.keySeparator) = true →
      lookupA acc.1 lang = none →
      lookupA (L.foldl (rvStep tr opts key args) acc).1 lang = none := by
  intro L
  induction L with
  | nil => intro acc lang _ h; exact h
  | cons x xs ih =>
    intro acc lang hfal hacc
    rw [List.foldl_cons]
    refine ih _ lang hfal ?_
    by_cases hx : jsFalsyOpt (getValue key (lookupA tr x) args opts.keySeparator)
    · rw [rvStep, if_pos hx]
      exact hacc
    · rw [rvStep, if_neg hx]
      have hxl : x ≠ lang := by
        intro e
        subst e
        exact hx hfal
      exact (lookupA_setAssoc_ne hxl).trans hacc

/-- C1 (amended): for a statically-resolved call, a non-default active
locale whose value is missing is logged with locale and key, and it is not
added to the value map — but it is not omitted from the generated fallback
chain: `buildLine` iterates all non-default supported locales, so the
missing locale still contributes the term
`<globalLang> === \x60<locale>\x60 && undefined || ` (its value renders as
the literal text `undefined`, which is falsy at runtime, so evaluation still
falls through to the default locale's value). -/
theorem missing_locale_term_renders_undefined :
    ∀ (tr : Translation) (opts : InlineOpts) (key : String) (args : Option String)
      (sup : List String) (dl dv lang : String),
      lang ∈ sup → lang ≠ dl →
      jsFalsyOpt (getValue key (lookupA tr lang) args opts.keySeparator) = true →
      (lang ++ " - missing value for key: " ++ key) ∈
          (resolveValues tr opts key args sup dl dv).2 ∧
      lookupA (resolveValues tr opts key args sup dl dv).1 lang = none ∧
      ∃ s t, (buildLine (resolveValues tr opts key args sup dl dv).1 sup dl).data =
        s ++ (globalLang ++ " === " ++ quoteValue lang ++ " && " ++ "undefined" ++
          " || ").data ++ t := by
  intro tr opts key args sup dl dv lang hmem hne hfal
  have hmemf : lang ∈ sup.filter (fun x => x ≠ dl) :=
    List.mem_filter.2 ⟨hmem, by simp [hne]⟩
  have hnone : lookupA (resolveValues tr opts key args sup dl dv).1 lang = none := by
    unfold resolveValues
    refine rvFold_lookup_none tr opts key args _ _ lang hfal ?_
    exact lookupA_single_ne (Ne.symm hne)
  refine ⟨?_, hnone, ?_⟩
  · unfold resolveValues
    exact rvFold_logs_mem tr opts key args _ _ lang hmemf hfal
  · rw [buildLine_sjoin]
    obtain ⟨P, S, hps⟩ := List.append_of_mem hmemf
    have hterm : lineTerm (resolveValues tr opts key args sup dl dv).1 lang =
        globalLang ++ " === " ++ quoteValue lang ++ " && " ++ "undefined" ++
          " || " := by
      unfold lineTerm
      rw [hnone]
      rfl
    rw [hps, List.map_append, List.map_cons, sjoin_append, ← hterm]
    refine ⟨(sjoin (P.map (lineTerm (resolveValues tr opts key args sup dl dv).1))).data,
      ((sjoin (S.map (lineTerm (resolveValues tr opts key args sup dl dv).1))) ++
        jsUndefToStr (lookupA (resolveValues tr opts key args sup dl dv).1 dl)).data,
      ?_⟩
    simp [sjoin, String.data_append, List.append_assoc]

theorem missing_locale_term_renders_undefined_witness :
    ("it-IT" ++ " - missing value for key: " ++ "greet") ∈
        (resolveValues trMissingIt optsEx "greet" none ["it-IT", "en-US"]
          "en-US" "\x60Hello\x60").2 ∧
    lookupA (resolveValues trMissingIt optsEx "greet" none ["it-IT", "en-US"]
        "en-US" "\x60Hello\x60").1 "it-IT" = none ∧
    ∃ s t, (buildLine (resolveValues trMissingIt optsEx "greet" none
        ["it-IT", "en-US"] "en-US" "\x60Hello\x60").1 ["it-IT", "en-US"]
        "en-US").data =
      s ++ (globalLang ++ " === " ++ quoteValue "it-IT" ++ " && " ++ "undefined" ++
        " || ").data ++ t :=
  missing_locale_term_renders_undefined trMissingIt optsEx "greet" none
    ["it-IT", "en-US"] "en-US" "\x60Hello\x60" "it-IT" (by decide) (by decide)
    (by decide)

/-- C1 counterexample: with the `it-IT` value missing, the call is still
inlined with an `it-IT` term carrying `undefined` in the chain (and the miss
is logged); the chain claimed by the spec — with the missing locale omitted,
i.e. the bare default value — is not what is generated. -/
theorem missing_locale_not_omitted_cex :
    processCall exSig trMissingIt optsEx exCall =
      (some "lang === \x60it-IT\x60 && undefined || \x60Hello\x60",
        ["it-IT - missing value for key: greet"]) ∧
    processCall exSig trMissingIt optsEx exCall ≠
      (some "\x60Hello\x60", ["it-IT - missing value for key: greet"]) := by
  decide

/-- C3: a call whose default-locale value does not resolve logs exactly one
missing-value notice (with the default locale, the key and the `Skip`
marker) and produces no replacement; consequently, for a chunk whose only
match is that call, the returned code block is byte-identical to the
input. -/
theorem default_miss_skips_call :
    (∀ (sig : String → Option String) (tr : Translation) (opts : InlineOpts)
        (fn args p0 : String) (rest : List String),
        sig fn = some args → args ≠ "" →
        getParams args = p0 :: rest →
        (jsTruthyOpt ((p0 :: rest).get? 1) &&
          ! matchesWordColon (((p0 :: rest).get? 1).getD "")) = false →
        jsFalsyOpt (getValue (getKey p0 opts.keyValueSeparator)
            (lookupA tr (activeLangs (multilingual ((p0 :: rest).get? 3)
              opts.supportedLangs) opts).2)
            ((p0 :: rest).get? 1) opts.keySeparator) = true →
        processCall sig tr opts fn =
          (none,
            [(activeLangs (multilingual ((p0 :: rest).get? 3)
                opts.supportedLangs) opts).2 ++ " - missing value for key: " ++
              getKey p0 opts.keyValueSeparator ++ " - Skip"])) ∧
    (∀ (sc : Scanner) (code : String) (tr : Translation) (opts : InlineOpts)
        (fn : String) (logs : List String),
        sc.matchAll code = [fn] →
        processCall sc.signature tr opts fn = (none, logs) →
        inline sc code tr opts = (some code, logs)) := by
  constructor
  · intro sig tr opts fn args p0 rest h1 h2 h4 h3 h5
    simp only [processCall, h1]
    rw [if_neg h2, h4, h3]
    simp only [Bool.false_eq_true, if_false]
    rw [h5]
    simp
  · intro sc code tr opts fn logs hm hp
    unfold inline
    rw [hm]
    simp only [List.foldl_cons, List.foldl_nil, inlineStep, hp]
    rw [List.nil_append]

theorem default_miss_skips_call_witness :
    processCall exSig trMissingDefault optsEx exCall =
      (none,
        [(activeLangs (multilingual ((["\x27greet\x27"] : List String).get? 3)
            optsEx.supportedLangs) optsEx).2 ++ " - missing value for key: " ++
          getKey "\x27greet\x27" optsEx.keyValueSeparator ++ " - Skip"]) ∧
    inline scEx "a = t(\x27greet\x27);" trMissingDefault optsEx =
      (some "a = t(\x27greet\x27);",
        ["en-US - missing value for key: greet - Skip"]) :=
  ⟨default_miss_skips_call.1 exSig trMissingDefault optsEx exCall "\x27greet\x27"
      "\x27greet\x27" [] (by rfl) (by decide) (by decide) (by decide) (by decide),
   default_miss_skips_call.2 scEx "a = t(\x27greet\x27);" trMissingDefault optsEx
      exCall ["en-US - missing value for key: greet - Skip"] (by rfl) (by decide)⟩

/-- C4: the transform is byte-identical to the input outside
matched-and-resolved call spans: when every matched call is skipped
(dynamic, or unresolvable default) the chunk is returned unchanged (or
untransformed), and when the single matched call resolves, the output is
the input with only the first occurrence of the matched span replaced — the
bytes before and after the span are preserved verbatim. -/
theorem inline_frame_property :
    (∀ (sc : Scanner) (code : String) (tr : Translation) (opts : InlineOpts),
        (∀ m ∈ sc.matchAll code, (processCall sc.signature tr opts m).1 = none) →
        (inline sc code tr opts).1 = none ∨ (inline sc code tr opts).1 = some code) ∧
    (∀ (sc : Scanner) (code : String) (tr : Translation) (opts : InlineOpts)
        (m line : String) (i : Nat),
        sc.matchAll code = [m] →
        (processCall sc.signature tr opts m).1 = some line →
        findSub code.data m.data = some i →
        code.data = code.data.take i ++ m.data ++
          code.data.drop (i + m.data.length) ∧
        ∃ mid, (inline sc code tr opts).1 =
          some (String.mk (code.data.take i ++ mid ++
            code.data.drop (i + m.data.length)))) := by
  constructor
  · intro sc code tr opts hskip
    cases hms : sc.matchAll code with
    | nil =>
      left
      unfold inline
      rw [hms]
    | cons m ms =>
      right
      unfold inline
      rw [hms]
      have := foldl_inlineStep_skip sc.signature tr opts (m :: ms) (code, [])
        (by rw [← hms]; exact hskip)
      simp only [this]
  · intro sc code tr opts m line i hm hp hfind
    refine ⟨findSub_decomp hfind, ?_⟩
    unfold inline
    rw [hm]
    simp only [List.foldl_cons, List.foldl_nil, inlineStep, hp]
    unfold jsReplaceFirst
    rw [hfind]
    exact ⟨_, rfl⟩

theorem inline_frame_property_witness :
    ((inline scNoSig "abc" trEx optsEx).1 = none ∨
      (inline scNoSig "abc" trEx optsEx).1 = some "abc") ∧
    ("a = t(\x27greet\x27);".data =
        "a = t(\x27greet\x27);".data.take 4 ++ exCall.data ++
          "a = t(\x27greet\x27);".data.drop (4 + exCall.data.length) ∧
      ∃ mid, (inline scEx "a = t(\x27greet\x27);" trEx optsEx).1 =
        some (String.mk ("a = t(\x27greet\x27);".data.take 4 ++ mid ++
          "a = t(\x27greet\x27);".data.drop (4 + exCall.data.length)))) :=
  ⟨inline_frame_property.1 scNoSig "abc" trEx optsEx (by decide),
   inline_frame_property.2 scEx "a = t(\x27greet\x27);" trEx optsEx exCall
      "lang === \x60it-IT\x60 && \x60Ciao\x60 || \x60Hello\x60" 4 (by rfl)
      (by decide) (by decide)⟩

end QwikSpeak
